import Mathlib

/-!
A verification development for the `prometheus-speedtest` exporter.

The Rust sources are shallowly embedded: pure functions become Lean
functions, in-place loops become explicit recursion over the same data,
and machine floats (`f32`/`f64`) are modelled by the value type `GF`
below, an exact-rational idealization of IEEE-754: `nan`, signed
infinities, and finite values carried as rationals.  Arithmetic on
finite values is exact (no rounding); all special-value propagation
(`NaN`, division by zero, infinities) follows IEEE-754, which is what
the claims under scrutiny exercise.  Machine integers are modelled as
`Int`/`Nat` with explicit wrapping or saturation where the source casts
or can overflow (release-profile wrapping semantics).
-/

/-- Model of an `f32`/`f64` value: `NaN`, a signed infinity, or a finite
value represented exactly as a rational. -/
inductive GF where
  | nan : GF
  | inf (pos : Bool) : GF
  | fin (q : ℚ) : GF
deriving DecidableEq, Repr

namespace GF

/-- IEEE addition on `GF` (exact on finite values). -/
def add : GF → GF → GF
  | nan, _ => nan
  | _, nan => nan
  | inf s, inf t => if s = t then inf s else nan
  | inf s, fin _ => inf s
  | fin _, inf t => inf t
  | fin a, fin b => fin (a + b)

/-- IEEE negation on `GF`. -/
def neg : GF → GF
  | nan => nan
  | inf s => inf (!s)
  | fin a => fin (-a)

/-- IEEE subtraction on `GF`. -/
def sub (a b : GF) : GF := add a (neg b)

/-- IEEE multiplication on `GF` (exact on finite values).  A zero times
an infinity is `NaN`. -/
def mul : GF → GF → GF
  | nan, _ => nan
  | _, nan => nan
  | inf s, inf t => inf (s = t)
  | inf s, fin q => if q = 0 then nan else inf (s = decide (0 < q))
  | fin q, inf t => if q = 0 then nan else inf (t = decide (0 < q))
  | fin a, fin b => fin (a * b)

/-- IEEE division on `GF` (exact on finite values).  `0/0` and `∞/∞` are
`NaN`; a nonzero finite value divided by zero is a signed infinity (the
zero is treated as `+0`, the only zero produced by the embedded code). -/
def div : GF → GF → GF
  | nan, _ => nan
  | _, nan => nan
  | inf _, inf _ => nan
  | inf s, fin q => inf (s = decide (0 ≤ q))
  | fin _, inf _ => fin 0
  | fin a, fin b =>
    if b = 0 then (if a = 0 then nan else inf (decide (0 < a))) else fin (a / b)

/-- `x.is_nan()` on the model. -/
def isNan : GF → Bool
  | nan => true
  | _ => false

/-- The boolean `<=` used by float comparisons: any comparison with
`NaN` is false. -/
def leb : GF → GF → Bool
  | nan, _ => false
  | _, nan => false
  | inf s, inf t => !s || t
  | inf s, fin _ => !s
  | fin _, inf t => t
  | fin a, fin b => decide (a ≤ b)

/-- The boolean `>=` used by float comparisons: any comparison with
`NaN` is false. -/
def geb (a b : GF) : Bool := leb b a

/-- Sum of a list of `GF` values the way `Iterator::sum` computes it:
fold of `+` starting from `0.0`. -/
def sumList (l : List GF) : GF := l.foldl add (fin 0)

/-- Rust `f32::round`/`f64::round` (round half away from zero) on a
finite rational. -/
def roundHalfAway (q : ℚ) : Int :=
  if 0 ≤ q then ⌊q + 1/2⌋ else -⌊-q + 1/2⌋

/-- Truncation toward zero, the rounding used by Rust's float-to-int
`as` casts. -/
def truncQ (q : ℚ) : Int := if 0 ≤ q then ⌊q⌋ else ⌈q⌉

/-- Rust `as i64` on a float value: `NaN` becomes `0`, infinities and
out-of-range values saturate to the `i64` bounds, finite values
truncate toward zero. -/
def castI64 : GF → Int
  | nan => 0
  | inf true => 2 ^ 63 - 1
  | inf false => -(2 ^ 63)
  | fin q => max (-(2 ^ 63)) (min (truncQ q) (2 ^ 63 - 1))

/-- Rust `as u64` on a float value: `NaN` and negative values become
`0`, `+∞` and out-of-range values saturate to `u64::MAX`, finite values
truncate toward zero. -/
def castU64 : GF → Nat
  | nan => 0
  | inf true => 2 ^ 64 - 1
  | inf false => 0
  | fin q => (min (truncQ q) (2 ^ 64 - 1)).toNat

theorem add_nan_right (a : GF) : add a nan = nan := by cases a <;> rfl

theorem add_left_comm_fold (x a b : GF) :
    add (add x a) b = add (add x b) a := by
  cases x <;> cases a <;> cases b <;> (try casesm* Bool) <;>
    first
      | rfl
      | (simp only [add]; ring_nf)

theorem add_nan_left (a : GF) : add nan a = nan := by cases a <;> rfl

theorem sub_nan_left (a : GF) : sub nan a = nan := by
  cases a <;> rfl

theorem mul_nan_left (a : GF) : mul nan a = nan := by cases a <;> rfl

theorem mul_nan_right (a : GF) : mul a nan = nan := by cases a <;> rfl

theorem div_nan_left (a : GF) : div nan a = nan := by cases a <;> rfl

end GF

/-- Wrapping reduction of an unbounded integer into the `i64` range,
the release-profile semantics of `i64` overflow. -/
def i64wrap (n : Int) : Int := (n + 2 ^ 63) % 2 ^ 64 - 2 ^ 63

theorem i64wrap_eq_self {n : Int} (h₁ : -(2 ^ 63) ≤ n) (h₂ : n < 2 ^ 63) :
    i64wrap n = n := by
  unfold i64wrap
  rw [Int.emod_eq_of_lt (by omega) (by omega)]
  omega

/-! ## `src/prometheus/strings.rs` -/

/-- `is_valid_prometheus_name`: every character is in `a..=z` or `_`.
Strings are modelled as their character lists (all names are ASCII, so
char-wise and byte-wise views agree). -/
def is_valid_prometheus_name (name : List Char) : Bool :=
  name.all fun ch => ('a' ≤ ch && ch ≤ 'z') || ch = '_'

/-- The error type `InvalidPrometheusNameError`. -/
inductive InvalidPrometheusNameError where
  | invalidName : InvalidPrometheusNameError
deriving DecidableEq, Repr

/-- `PName::new`: validate and return the very same string, or fail. -/
def pnameNew (name : List Char) :
    Except InvalidPrometheusNameError (List Char) :=
  if is_valid_prometheus_name name then .ok name
  else .error .invalidName

/-- C5 counterexample: the empty string is accepted by `PName::new`
(it returns `Ok("")`), while the claim requires the `InvalidName`
error for every string not matching `[a-z_]+`, the empty string
included. -/
theorem pnameNew_empty_ok : pnameNew [] = .ok [] := rfl

/-- C5 (amended): `PName::new(s)` succeeds and returns exactly `s` iff
every character of `s` is in `{a..z, _}` (i.e. `s` matches `[a-z_]*`,
zero or more characters); otherwise it fails with the `InvalidName`
error.  In particular the empty string is accepted. -/
theorem pnameNew_ok_iff (s : List Char) :
    (pnameNew s = .ok s ↔ ∀ c ∈ s, ('a' ≤ c ∧ c ≤ 'z') ∨ c = '_') ∧
    (pnameNew s = .error .invalidName ↔
      ¬ ∀ c ∈ s, ('a' ≤ c ∧ c ≤ 'z') ∨ c = '_') := by
  have key : is_valid_prometheus_name s = true ↔
      ∀ c ∈ s, ('a' ≤ c ∧ c ≤ 'z') ∨ c = '_' := by
    unfold is_valid_prometheus_name
    rw [List.all_eq_true]
    constructor
    · intro hall c hc
      simpa using hall c hc
    · intro h c hc
      simpa using h c hc
  unfold pnameNew
  by_cases hb : is_valid_prometheus_name s = true
  · rw [if_pos hb]
    rw [key] at hb
    refine ⟨⟨fun _ => hb, fun _ => rfl⟩, ⟨fun hcon => ?_, fun hneg => absurd hb hneg⟩⟩
    exact absurd hcon (by simp)
  · rw [if_neg hb]
    rw [key] at hb
    refine ⟨⟨fun hcon => ?_, fun hy => absurd hy hb⟩, ⟨fun _ => hb, fun _ => rfl⟩⟩
    exact absurd hcon (by simp)

/-! ## `src/config.rs` -/

/-- The quantile-bearing part of the `[ping]` configuration table. -/
structure PingConfigM where
  quantiles : List ℚ
deriving DecidableEq, Repr

/-- The quantile-bearing part of the `[speedtest]` configuration
table. -/
structure SpeedtestConfigM where
  quantiles : List ℚ
deriving DecidableEq, Repr

/-- The quantile-bearing part of `Config` (remaining fields — server
address, targets, durations — do not interact with the claims). -/
structure ConfigM where
  ping : PingConfigM
  speedtest : SpeedtestConfigM
deriving DecidableEq, Repr

/-- The pure post-processing done by `load_config` after parsing: it
sorts `config.speedtest.quantiles` ascending in place
(`sort_unstable_by` with `partial_cmp`) and leaves every other field,
`config.ping.quantiles` included, untouched.  The unstable sort is
modelled by insertion sort: on a totally ordered list both produce the
same sorted permutation. -/
def load_config_sort (c : ConfigM) : ConfigM :=
  { c with
    speedtest :=
      { c.speedtest with
        quantiles := c.speedtest.quantiles.insertionSort (· ≤ ·) } }

/-- C2 counterexample: a configuration listing the ping quantiles out
of order reaches the digester unsorted — `load_config` sorts only the
speedtest quantiles, and `perform_ping` passes `config.ping.quantiles`
to `PingSummary::digest_data` unchanged. -/
theorem load_config_ping_unsorted :
    (load_config_sort ⟨⟨[1/2, 0]⟩, ⟨[1/2, 0]⟩⟩).ping.quantiles
        = [1/2, 0] ∧
      ¬ List.Sorted (· ≤ ·)
        (load_config_sort ⟨⟨[1/2, 0]⟩, ⟨[1/2, 0]⟩⟩).ping.quantiles := by
  refine ⟨rfl, fun hs => ?_⟩
  have h := (List.sorted_cons.mp hs).1 0 (by simp)
  norm_num at h

/-- C2 (amended): `load_config` sorts the **speedtest** quantile list
ascending before use; the **ping** quantile list is passed to
`PingSummary::digest_data` exactly as it appears in the configuration
file, unsorted. -/
theorem load_config_sort_spec (c : ConfigM) :
    (load_config_sort c).ping.quantiles = c.ping.quantiles ∧
    List.Sorted (· ≤ ·) (load_config_sort c).speedtest.quantiles ∧
    (load_config_sort c).speedtest.quantiles.Perm c.speedtest.quantiles := by
  refine ⟨rfl, ?_, ?_⟩
  · exact List.sorted_insertionSort _ _
  · exact List.perm_insertionSort _ _

/-! ## `src/prometheus/go_floats.rs` -/

/-- The hex alphabet `ALPH` (the byte string `0123456789abcdef`). -/
def goAlph : List Char := "0123456789abcdef".toList

/-- `ALPH[n]` for a nibble `n` (the source always indexes with `& 0xf`). -/
def hexChar (n : Nat) : Char := goAlph.getD n '0'

/-- The mantissa-emission loop of `to_go_string_impl`: while the
width-bit register is nonzero, emit its top nibble and shift left by 4
(dropping bits shifted past the width).  `fuel` bounds the iteration
count; any `fuel ≥ width / 4` suffices because the register's low bits
are zero and each step shifts in four more zero bits. -/
def nibLoop (width : Nat) : Nat → Nat → List Char
  | 0, _ => []
  | fuel + 1, fraction =>
    if fraction = 0 then []
    else
      hexChar (fraction / 2 ^ (width - 4) % 16) ::
        nibLoop width fuel (fraction * 16 % 2 ^ width)

/-- `bits & FRAC_MASK`: the stored mantissa field. -/
def fBitsFrac (fracBits bits : Nat) : Nat := bits % 2 ^ fracBits

/-- `(bits >> FRAC_BITS) & EXP_MASK`: the raw (biased) exponent field. -/
def fBitsExp (fracBits expBits bits : Nat) : Nat :=
  bits / 2 ^ fracBits % 2 ^ expBits

/-- `float.is_sign_positive()`: the top bit is clear. -/
def fBitsSignPos (fracBits expBits bits : Nat) : Bool :=
  bits / 2 ^ (fracBits + expBits) % 2 = 0

/-- Decimal rendering of a signed integer, as Rust's `i16: Display`
writes the exponent: a leading `-` for negatives, no `+` for
non-negatives. -/
def intDecimal (n : Int) : List Char :=
  if n < 0 then '-' :: Nat.toDigits 10 n.natAbs else Nat.toDigits 10 n.toNat

/-- `f32_to_go_string` / `f64_to_go_string`, generically over the field
widths exactly as the source macro is (f32: `fracBits = 23`,
`expBits = 8`; f64: `fracBits = 52`, `expBits = 11`).  The float is
given by its `to_bits()` pattern; bit masking `&` with a low mask and
shifting right are written as `%` and `/` by powers of two.  `NaN`,
infinity and `== 0.0` tests are the bit-level equivalents of the float
predicates the source calls. -/
def f_to_go_string (fracBits expBits bits : Nat) : List Char :=
  let width := fracBits + expBits + 1
  let frac := fBitsFrac fracBits bits
  let rawExp := fBitsExp fracBits expBits bits
  let signPos := fBitsSignPos fracBits expBits bits
  if rawExp = 2 ^ expBits - 1 ∧ frac ≠ 0 then
    'N' :: 'a' :: 'N' :: []
  else if rawExp = 2 ^ expBits - 1 then
    (if signPos then '+' else '-') :: 'I' :: 'n' :: 'f' :: []
  else if rawExp = 0 ∧ frac = 0 then
    '0' :: []
  else
    let sign := if signPos then '+' else '-'
    let leading := if rawExp = 0 then '0' else '1'
    let exponent : Int := (rawExp : Int) - (2 ^ (expBits - 1) - 1)
    sign :: '0' :: 'x' :: leading :: '.' ::
      (nibLoop width width (frac * 2 ^ (width - fracBits)) ++
        'p' :: intDecimal exponent)

/-- Big-endian fixed-width hex digits: the `k`-nibble rendering of
`n < 16 ^ k`.  A specification-side helper for stating what the
emission loop produces. -/
def fixedHex : Nat → Nat → List Char
  | 0, _ => []
  | k + 1, n => hexChar (n / 16 ^ k % 16) :: fixedHex k (n % 16 ^ k)

/-- Remove the trailing `'0'` characters of a digit string. -/
def trimTrailingZeros (l : List Char) : List Char :=
  (l.reverse.dropWhile (· = '0')).reverse

/-- The claim's description of the fraction text: the mantissa in
lowercase hex, left-aligned at the mantissa MSB (the stored fraction is
padded at the low end to a whole number of nibbles), with trailing zero
nibbles elided. -/
def specFrac (fracBits frac : Nat) : List Char :=
  let k := (fracBits + 3) / 4
  trimTrailingZeros (fixedHex k (frac * 2 ^ (4 * k - fracBits)))

theorem fixedHex_zero (k : Nat) : fixedHex k 0 = List.replicate k '0' := by
  induction k with
  | zero => rfl
  | succ k ih =>
    simp [fixedHex, ih, List.replicate_succ, hexChar, goAlph]

theorem trimTrailingZeros_eq_nil_iff (l : List Char) :
    trimTrailingZeros l = [] ↔ ∀ c ∈ l, c = '0' := by
  unfold trimTrailingZeros
  rw [List.reverse_eq_nil_iff, List.dropWhile_eq_nil_iff]
  constructor
  · intro h c hc
    simpa using h c (by simpa using hc)
  · intro h c hc
    simpa using h c (by simpa using hc)

theorem hexChar_eq_zero_iff {d : Nat} (hd : d < 16) :
    hexChar d = '0' ↔ d = 0 := by
  interval_cases d <;> decide

theorem fixedHex_all_zero {k m : Nat} (hm : m < 16 ^ k)
    (h : ∀ c ∈ fixedHex k m, c = '0') : m = 0 := by
  induction k generalizing m with
  | zero => omega
  | succ k ih =>
    have hd : m / 16 ^ k % 16 = 0 := by
      have hmem : hexChar (m / 16 ^ k % 16) ∈ fixedHex (k + 1) m := by
        simp [fixedHex]
      exact (hexChar_eq_zero_iff (Nat.mod_lt _ (by norm_num))).mp (h _ hmem)
    have hrest : m % 16 ^ k = 0 :=
      ih (Nat.mod_lt _ (Nat.pos_pow_of_pos _ (by norm_num)))
        fun c hc => h c (by simp [fixedHex, hc])
    have hdiv : m / 16 ^ k < 16 := by
      rw [Nat.div_lt_iff_lt_mul (Nat.pos_pow_of_pos _ (by norm_num))]
      rw [pow_succ] at hm
      omega
    have hq : m / 16 ^ k = 0 := by
      rw [Nat.mod_eq_of_lt hdiv] at hd
      exact hd
    have hm0 := (Nat.div_add_mod m (16 ^ k)).symm
    rw [hq, hrest, Nat.mul_zero, Nat.add_zero] at hm0
    exact hm0

theorem trimTrailingZeros_cons (d : Char) (rest : List Char) :
    trimTrailingZeros (d :: rest) =
      if trimTrailingZeros rest = [] then (if d = '0' then [] else [d])
      else d :: trimTrailingZeros rest := by
  unfold trimTrailingZeros
  rw [List.reverse_cons, List.dropWhile_append]
  by_cases h : (rest.reverse.dropWhile (· = '0')) = []
  · simp only [h, List.isEmpty_nil, List.reverse_eq_nil_iff.mpr rfl]
    by_cases hd : d = '0'
    · simp [hd, h]
    · simp [hd, h, List.dropWhile]
  · have : (rest.reverse.dropWhile (· = '0')).isEmpty = false := by
      simpa [List.isEmpty_iff] using h
    simp only [this, Bool.false_eq_true, if_false, List.reverse_append]
    simp [List.reverse_eq_nil_iff, h]

theorem nibLoop_zero (width fuel : Nat) : nibLoop width fuel 0 = [] := by
  cases fuel <;> simp [nibLoop]

theorem nibLoop_eq_trim (k : Nat) :
    ∀ (fuel width n : Nat), 4 * k ≤ width → k ≤ fuel → n < 16 ^ k →
      nibLoop width fuel (n * 2 ^ (width - 4 * k)) =
        trimTrailingZeros (fixedHex k n) := by
  induction k with
  | zero =>
    intro fuel width n _ _ hn
    have : n = 0 := by omega
    subst this
    simp [nibLoop_zero, fixedHex, trimTrailingZeros]
  | succ k ih =>
    intro fuel width n hw hfuel hn
    obtain ⟨f, rfl⟩ : ∃ f, fuel = f + 1 := ⟨fuel - 1, by omega⟩
    by_cases hn0 : n = 0
    · subst hn0
      rw [Nat.zero_mul, nibLoop_zero]
      rw [eq_comm, trimTrailingZeros_eq_nil_iff, fixedHex_zero]
      intro c hc
      exact (List.eq_of_mem_replicate hc)
    · have hpow : (0:Nat) < 2 ^ (width - 4 * (k + 1)) := Nat.pos_pow_of_pos _ (by norm_num)
      have hfrac_ne : n * 2 ^ (width - 4 * (k + 1)) ≠ 0 := by positivity
      rw [nibLoop, if_neg hfrac_ne]
      have e16 : (16:Nat) ^ k = 2 ^ (4 * k) := by
        rw [pow_mul]
        norm_num
      have hdigit :
          n * 2 ^ (width - 4 * (k + 1)) / 2 ^ (width - 4) % 16 = n / 16 ^ k % 16 := by
        have hsplit : (2:Nat) ^ (width - 4) = 2 ^ (width - 4 * (k + 1)) * 2 ^ (4 * k) := by
          rw [← pow_add]
          congr 1
          omega
        rw [hsplit, Nat.mul_comm n, Nat.mul_div_mul_left _ _ hpow, e16]
      have htail :
          n * 2 ^ (width - 4 * (k + 1)) * 16 % 2 ^ width =
            n % 16 ^ k * 2 ^ (width - 4 * k) := by
        have h1 : n * 2 ^ (width - 4 * (k + 1)) * 16 = n * 2 ^ (width - 4 * k) := by
          rw [Nat.mul_assoc]
          congr 1
          have : (16:Nat) = 2 ^ 4 := by norm_num
          rw [this, ← pow_add]
          congr 1
          omega
        have hsplit2 : (2:Nat) ^ width = 2 ^ (4 * k) * 2 ^ (width - 4 * k) := by
          rw [← pow_add]
          congr 1
          omega
        have h2 : n * 2 ^ (width - 4 * k) =
            2 ^ width * (n / 16 ^ k) + n % 16 ^ k * 2 ^ (width - 4 * k) := by
          conv_lhs => rw [← Nat.div_add_mod n (16 ^ k)]
          rw [e16, Nat.add_mul, hsplit2]
          ring
        have h3 : n % 16 ^ k * 2 ^ (width - 4 * k) < 2 ^ width := by
          have hm : n % 16 ^ k < 16 ^ k := Nat.mod_lt _ (Nat.pos_pow_of_pos _ (by norm_num))
          calc n % 16 ^ k * 2 ^ (width - 4 * k)
              < 16 ^ k * 2 ^ (width - 4 * k) :=
                mul_lt_mul_of_pos_right hm (Nat.pos_pow_of_pos _ (by norm_num))
            _ = 2 ^ width := by
                rw [e16, ← pow_add]
                congr 1
                omega
        rw [h1, h2, Nat.mul_add_mod, Nat.mod_eq_of_lt h3]
      rw [hdigit, htail]
      have ihk := ih f width (n % 16 ^ k) (by omega) (by omega)
        (Nat.mod_lt _ (Nat.pos_pow_of_pos _ (by norm_num)))
      rw [ihk]
      rw [show fixedHex (k + 1) n = hexChar (n / 16 ^ k % 16) :: fixedHex k (n % 16 ^ k) from rfl]
      rw [trimTrailingZeros_cons]
      by_cases hz : trimTrailingZeros (fixedHex k (n % 16 ^ k)) = []
      · rw [if_pos hz, hz]
        have hmod0 : n % 16 ^ k = 0 :=
          fixedHex_all_zero (Nat.mod_lt _ (Nat.pos_pow_of_pos _ (by norm_num)))
            ((trimTrailingZeros_eq_nil_iff _).mp hz)
        have hdivlt : n / 16 ^ k < 16 := by
          rw [Nat.div_lt_iff_lt_mul (Nat.pos_pow_of_pos _ (by norm_num))]
          calc n < 16 ^ (k + 1) := hn
            _ = 16 * 16 ^ k := by rw [pow_succ]; ring
        have hdivne : n / 16 ^ k ≠ 0 := by
          intro hq
          apply hn0
          have := (Nat.div_add_mod n (16 ^ k)).symm
          rw [hq, hmod0, Nat.mul_zero, Nat.add_zero] at this
          exact this
        rw [Nat.mod_eq_of_lt hdivlt]
        rw [if_neg (by
          intro hch
          exact hdivne ((hexChar_eq_zero_iff hdivlt).mp hch))]
      · rw [if_neg hz]

/-- C6: for every float bit pattern (f32: `fracBits = 23, expBits = 8`;
f64: `fracBits = 52, expBits = 11`) the Go-float serializer emits
`NaN` for NaN, `+Inf`/`-Inf` for the infinities, the single character
`0` for positive and negative zero, and otherwise
`<sign>0x<leading>.<frac>p<exp>` with leading `0` for subnormals and
`1` otherwise, the mantissa in lowercase hex left-aligned with trailing
zero nibbles elided, and the unbiased exponent
`raw_exp - ((1 << (expBits - 1)) - 1)` in signed decimal; in
particular `1.0` renders as `+0x1.p0`, `0.15625` as `+0x1.4p-3`, and
the smallest positive subnormal f64 as
`+0x0.0000000000001p-1023`. -/
theorem go_float_rendering :
    (∀ fracBits expBits bits : Nat,
      1 ≤ expBits →
      4 * ((fracBits + 3) / 4) ≤ fracBits + expBits + 1 →
      (fBitsExp fracBits expBits bits = 2 ^ expBits - 1 ∧
          fBitsFrac fracBits bits ≠ 0 →
        f_to_go_string fracBits expBits bits = 'N' :: 'a' :: 'N' :: []) ∧
      (fBitsExp fracBits expBits bits = 2 ^ expBits - 1 ∧
          fBitsFrac fracBits bits = 0 →
        f_to_go_string fracBits expBits bits =
          (if fBitsSignPos fracBits expBits bits then '+' else '-') ::
            'I' :: 'n' :: 'f' :: []) ∧
      (fBitsExp fracBits expBits bits = 0 ∧ fBitsFrac fracBits bits = 0 →
        f_to_go_string fracBits expBits bits = '0' :: []) ∧
      (fBitsExp fracBits expBits bits ≠ 2 ^ expBits - 1 →
        ¬(fBitsExp fracBits expBits bits = 0 ∧ fBitsFrac fracBits bits = 0) →
        f_to_go_string fracBits expBits bits =
          (if fBitsSignPos fracBits expBits bits then '+' else '-') ::
            '0' :: 'x' ::
            (if fBitsExp fracBits expBits bits = 0 then '0' else '1') :: '.' ::
            (specFrac fracBits (fBitsFrac fracBits bits) ++
              'p' :: intDecimal ((fBitsExp fracBits expBits bits : Int) -
                (2 ^ (expBits - 1) - 1))))) ∧
    f_to_go_string 52 11 0x3FF0000000000000 = "+0x1.p0".toList ∧
    f_to_go_string 52 11 0x3FC4000000000000 = "+0x1.4p-3".toList ∧
    f_to_go_string 52 11 1 = "+0x0.0000000000001p-1023".toList := by
  refine ⟨?_, by decide, by decide, by decide⟩
  intro fracBits expBits bits he hk
  have hmask : (1:Nat) ≤ 2 ^ expBits - 1 := by
    have : (2:Nat) ^ 1 ≤ 2 ^ expBits := Nat.pow_le_pow_right (by norm_num) he
    omega
  refine ⟨?_, ?_, ?_, ?_⟩
  · rintro ⟨h1, h2⟩
    simp only [f_to_go_string]
    rw [if_pos ⟨h1, h2⟩]
  · rintro ⟨h1, h2⟩
    simp only [f_to_go_string]
    rw [if_neg (by
      rintro ⟨_, hc⟩
      exact hc h2)]
    rw [if_pos h1]
  · rintro ⟨h1, h2⟩
    simp only [f_to_go_string]
    rw [if_neg (by
      rintro ⟨hc, _⟩
      rw [h1] at hc
      omega)]
    rw [if_neg (by
      intro hc
      rw [h1] at hc
      omega)]
    rw [if_pos ⟨h1, h2⟩]
  · intro h1 h2
    simp only [f_to_go_string]
    rw [if_neg (by
      rintro ⟨hc, _⟩
      exact h1 hc)]
    rw [if_neg h1, if_neg h2]
    have hfr : fBitsFrac fracBits bits < 2 ^ fracBits := Nat.mod_lt _ (Nat.pos_pow_of_pos _ (by norm_num))
    have hfk : fracBits ≤ 4 * ((fracBits + 3) / 4) := by omega
    have hkey :
        nibLoop (fracBits + expBits + 1) (fracBits + expBits + 1)
            (fBitsFrac fracBits bits * 2 ^ (fracBits + expBits + 1 - fracBits)) =
          specFrac fracBits (fBitsFrac fracBits bits) := by
      have hsplit :
          fBitsFrac fracBits bits * 2 ^ (fracBits + expBits + 1 - fracBits) =
            fBitsFrac fracBits bits * 2 ^ (4 * ((fracBits + 3) / 4) - fracBits) *
              2 ^ (fracBits + expBits + 1 - 4 * ((fracBits + 3) / 4)) := by
        rw [Nat.mul_assoc, ← pow_add]
        congr 2
        omega
      have hnlt :
          fBitsFrac fracBits bits * 2 ^ (4 * ((fracBits + 3) / 4) - fracBits) <
            16 ^ ((fracBits + 3) / 4) := by
        have h16 : (16:Nat) ^ ((fracBits + 3) / 4) = 2 ^ (4 * ((fracBits + 3) / 4)) := by
          rw [pow_mul]
          norm_num
        calc fBitsFrac fracBits bits * 2 ^ (4 * ((fracBits + 3) / 4) - fracBits)
            < 2 ^ fracBits * 2 ^ (4 * ((fracBits + 3) / 4) - fracBits) :=
              mul_lt_mul_of_pos_right hfr (Nat.pos_pow_of_pos _ (by norm_num))
          _ = 16 ^ ((fracBits + 3) / 4) := by
              rw [← pow_add, h16]
              congr 1
              omega
      rw [hsplit]
      exact nibLoop_eq_trim ((fracBits + 3) / 4) (fracBits + expBits + 1)
        (fracBits + expBits + 1) _ hk (by omega) hnlt
    rw [hkey]

/-- Witness for the Go-float rendering theorem: the NaN, infinity and
negative-zero branches evaluated at concrete f64/f32 bit patterns. -/
theorem go_float_rendering_witness :
    f_to_go_string 52 11 0x7FF8000000000000 = 'N' :: 'a' :: 'N' :: [] ∧
    f_to_go_string 23 8 0x7F800000 = '+' :: 'I' :: 'n' :: 'f' :: [] ∧
    f_to_go_string 52 11 0x8000000000000000 = '0' :: [] := by
  refine ⟨?_, ?_, ?_⟩
  · exact (go_float_rendering.1 52 11 0x7FF8000000000000
      (by decide) (by decide)).1 (by decide)
  · have h := (go_float_rendering.1 23 8 0x7F800000
      (by decide) (by decide)).2.1 (by decide)
    rw [h]
    decide
  · exact (go_float_rendering.1 52 11 0x8000000000000000
      (by decide) (by decide)).2.2.1 (by decide)

/-! ## `src/prometheus.rs` — the exposition builder

Strings are modelled as `List Char`; names are the character lists
underlying `PName` values.  `SerializeGoFloat` / label-value arguments
are carried as the text they serialize to (their rendering is the
subject of the Go-float section and does not interact with the
grouping, ordering and stack claims below). -/

/-- `LabelBuilder` and `PNameBuilder` share this shape: an accumulated
text buffer plus the stack of previous lengths (`waypoints`), newest
first. -/
structure StackBuf where
  buf : List Char
  waypoints : List Nat
deriving DecidableEq, Repr

namespace StackBuf

/-- `PNameBuilder::new` / `LabelBuilder::new` / `Default`. -/
def empty : StackBuf := ⟨[], []⟩

/-- `PNameBuilder::push`: record the current length, append the name. -/
def pushName (sb : StackBuf) (name : List Char) : StackBuf :=
  ⟨sb.buf ++ name, sb.buf.length :: sb.waypoints⟩

/-- `write_label`: `{name="value"` for the first label and
`, name="value"` for subsequent ones. -/
def labelText (name value : List Char) (hasLabels : Bool) : List Char :=
  (if hasLabels then ',' :: ' ' :: [] else '\x7b' :: []) ++
    (name ++ '=' :: '"' :: (value ++ '"' :: []))

/-- `LabelBuilder::push`. -/
def pushLabel (sb : StackBuf) (name value : List Char) : StackBuf :=
  ⟨sb.buf ++ labelText name value (!sb.buf.isEmpty),
    sb.buf.length :: sb.waypoints⟩

/-- `LabelBuilder::pop` / `PNameBuilder::pop`: truncate the buffer to
the most recently saved length ( a no-op on an empty stack). -/
def pop (sb : StackBuf) : StackBuf :=
  match sb.waypoints with
  | [] => sb
  | len :: rest => ⟨sb.buf.take len, rest⟩

/-- `Display for LabelBuilder`: nothing when empty, otherwise the
buffer followed by the closing brace. -/
def labelsDisplay (sb : StackBuf) : List Char :=
  if sb.buf.isEmpty then [] else sb.buf ++ '\x7d' :: []

theorem pop_pushName (sb : StackBuf) (n : List Char) :
    (sb.pushName n).pop = sb := by
  simp [pushName, pop, List.take_left]

theorem pop_pushLabel (sb : StackBuf) (n v : List Char) :
    (sb.pushLabel n v).pop = sb := by
  simp [pushLabel, pop, List.take_left]

end StackBuf

/-- A `MetricGroup` together with its key: the fully qualified name,
the interned `# HELP`/`# TYPE` header, and the sample lines in append
order. -/
structure EntryM where
  key : List Char
  help : List Char
  lines : List (List Char)
deriving DecidableEq, Repr

/-- `ExpositionBuilder` state: the groups in insertion order (the
`HashMap` plus the order in which keys were first inserted), the label
stack and the name stack.  The scratch `buffer` is omitted: the source
clears it before every use, so it carries no observable state between
operations. -/
structure ExpoSt where
  entries : List EntryM
  labels : StackBuf
  name : StackBuf
deriving DecidableEq, Repr

/-- `ExpositionBuilder::new`. -/
def expoInit : ExpoSt := ⟨[], .empty, .empty⟩

/-- `MetricType`. -/
inductive MetricTypeM where
  | counter | gauge | histogram | summary | untyped
deriving DecidableEq, Repr

/-- `Display for MetricType`. -/
def metricTypeText : MetricTypeM → List Char
  | .counter => 'c' :: 'o' :: 'u' :: 'n' :: 't' :: 'e' :: 'r' :: []
  | .gauge => 'g' :: 'a' :: 'u' :: 'g' :: 'e' :: []
  | .histogram => 'h' :: 'i' :: 's' :: 't' :: 'o' :: 'g' :: 'r' :: 'a' :: 'm' :: []
  | .summary => 's' :: 'u' :: 'm' :: 'm' :: 'a' :: 'r' :: 'y' :: []
  | .untyped => 'u' :: 'n' :: 't' :: 'y' :: 'p' :: 'e' :: 'd' :: []

/-- The in-place newline replacement applied to the help text. -/
def helpEscape (help : List Char) : List Char :=
  help.map fun c => if c = '\n' then ' ' else c

/-- The header synthesized for a new metric group:
`# HELP <name> <help>\n# TYPE <name> <type>\n`. -/
def headerText (nm : List Char) (ty : MetricTypeM) (help : List Char) : List Char :=
  '#' :: ' ' :: 'H' :: 'E' :: 'L' :: 'P' :: ' ' :: nm ++ ' ' :: helpEscape help ++
    '\n' :: '#' :: ' ' :: 'T' :: 'Y' :: 'P' :: 'E' :: ' ' :: nm ++ ' ' ::
    metricTypeText ty ++ '\n' :: []

/-- `self.entries.get_key_value(name).is_some()`. -/
def hasKey (es : List EntryM) (k : List Char) : Bool :=
  es.any fun e => decide (e.key = k)

/-- `entries.get_mut(group_name).unwrap().lines.push(line)`: append the
line to the group with the given key. -/
def appendLineAt (es : List EntryM) (k : List Char) (line : List Char) :
    List EntryM :=
  es.map fun e => if e.key = k then { e with lines := e.lines ++ [line] } else e

/-- The optional `<unix-millis>` tail of a line (written directly after
the value, as the source does). -/
def tsText : Option Nat → List Char
  | none => []
  | some t => Nat.toDigits 10 t

/-- The operations available on an `ExpositionMetricBuilder` (the value
handed to an `add_metric` body): its two line writers and its scoped
label/name pushes.  `data` is the serialized value text. -/
inductive MOp where
  | addLine (data : List Char) (ts : Option Nat)
  | addLineLabeled (label value data : List Char) (ts : Option Nat)
  | withLabel (name value : List Char) (body : List MOp)
  | withName (name : List Char) (body : List MOp)
deriving Repr

/-- The operations available on an `ExpositionBuilder`: scoped
label/name pushes and `add_metric` with a body of metric-builder
operations. -/
inductive BOp where
  | withLabel (name value : List Char) (body : List BOp)
  | withName (name : List Char) (body : List BOp)
  | addMetric (suffix : List Char) (ty : MetricTypeM) (help : List Char)
      (body : List MOp)
deriving Repr

mutual

/-- Interpret one `ExpositionMetricBuilder` operation against the
builder state; `g` is the group key the metric builder is rooted at. -/
def runM (g : List Char) : MOp → ExpoSt → ExpoSt
  | .addLine data ts, st =>
    { st with
      entries := appendLineAt st.entries g
        (st.name.buf ++ st.labels.labelsDisplay ++ ' ' ::
          (data ++ tsText ts ++ '\n' :: [])) }
  | .addLineLabeled label value data ts, st =>
    let pushed := st.labels.pushLabel label value
    { st with
      labels := pushed.pop,
      entries := appendLineAt st.entries g
        (st.name.buf ++ pushed.labelsDisplay ++ ' ' ::
          (data ++ tsText ts ++ '\n' :: [])) }
  | .withLabel nm v body, st =>
    let st2 := runMs g body { st with labels := st.labels.pushLabel nm v }
    { st2 with labels := st2.labels.pop }
  | .withName nm body, st =>
    let st2 := runMs g body { st with name := st.name.pushName nm }
    { st2 with name := st2.name.pop }

/-- Interpret a sequence of metric-builder operations (the body of an
`add_metric` call), left to right. -/
def runMs (g : List Char) : List MOp → ExpoSt → ExpoSt
  | [], st => st
  | op :: rest, st => runMs g rest (runM g op st)

end

mutual

/-- Interpret one `ExpositionBuilder` operation.  `add_metric` pushes
the suffix, creates the group (with its synthesized header) if the
fully qualified name is new, swaps the name stack out for an empty one
(`mem::take`) while the body runs, restores it and pops. -/
def runB : BOp → ExpoSt → ExpoSt
  | .withLabel nm v body, st =>
    let st2 := runBs body { st with labels := st.labels.pushLabel nm v }
    { st2 with labels := st2.labels.pop }
  | .withName nm body, st =>
    let st2 := runBs body { st with name := st.name.pushName nm }
    { st2 with name := st2.name.pop }
  | .addMetric suffix ty help body, st =>
    let st1 := { st with name := st.name.pushName suffix }
    let fq := st1.name.buf
    let st2 :=
      if hasKey st1.entries fq then st1
      else { st1 with entries := st1.entries ++ [⟨fq, headerText fq ty help, []⟩] }
    let st4 := runMs fq body { st2 with name := .empty }
    { st4 with name := st2.name.pop }

/-- Interpret a sequence of builder operations, left to right. -/
def runBs : List BOp → ExpoSt → ExpoSt
  | [], st => st
  | op :: rest, st => runBs rest (runB op st)

end

/-- `!group.lines.is_empty()`: the render filter. -/
def entryNonEmpty (e : EntryM) : Bool := !e.lines.isEmpty

/-- The groups the `Display` impl walks: non-empty groups sorted by
key (`sort_unstable_by_key`); modelled with insertion sort, which
produces the same sorted sequence whenever keys are unique. -/
def sortedEntries (st : ExpoSt) : List EntryM :=
  (st.entries.filter entryNonEmpty).insertionSort fun a b => a.key ≤ b.key

/-- One group's output: the header, then each line prefixed with the
group's fully qualified name. -/
def renderEntry (e : EntryM) : List Char :=
  e.help ++ (e.lines.map fun l => e.key ++ l).flatten

/-- `Display for ExpositionBuilder`: the sorted non-empty groups,
concatenated. -/
def renderOut (st : ExpoSt) : List Char :=
  ((sortedEntries st).map renderEntry).flatten

/-- What the claim asserts the renderer does: the same per-group text,
but with the non-empty groups kept in insertion order. -/
def renderInsertionOrder (st : ExpoSt) : List Char :=
  ((st.entries.filter entryNonEmpty).map renderEntry).flatten

mutual

theorem runM_frames : ∀ (g : List Char) (op : MOp) (st : ExpoSt),
    (runM g op st).labels = st.labels ∧ (runM g op st).name = st.name
  | g, .addLine data ts, st => by simp [runM]
  | g, .addLineLabeled label value data ts, st => by
    simp [runM, StackBuf.pop_pushLabel]
  | g, .withLabel nm v body, st => by
    have h := runMs_frames g body { st with labels := st.labels.pushLabel nm v }
    simp only [runM]
    refine ⟨?_, ?_⟩
    · rw [h.1]
      exact StackBuf.pop_pushLabel st.labels nm v
    · exact h.2
  | g, .withName nm body, st => by
    have h := runMs_frames g body { st with name := st.name.pushName nm }
    simp only [runM]
    refine ⟨?_, ?_⟩
    · exact h.1
    · rw [h.2]
      exact StackBuf.pop_pushName st.name nm

theorem runMs_frames : ∀ (g : List Char) (ops : List MOp) (st : ExpoSt),
    (runMs g ops st).labels = st.labels ∧ (runMs g ops st).name = st.name
  | g, [], st => by simp [runMs]
  | g, op :: rest, st => by
    have h1 := runM_frames g op st
    have h2 := runMs_frames g rest (runM g op st)
    simp only [runMs]
    exact ⟨h2.1.trans h1.1, h2.2.trans h1.2⟩

end

mutual

theorem runB_frames : ∀ (op : BOp) (st : ExpoSt),
    (runB op st).labels = st.labels ∧ (runB op st).name = st.name
  | .withLabel nm v body, st => by
    have h := runBs_frames body { st with labels := st.labels.pushLabel nm v }
    simp only [runB]
    refine ⟨?_, h.2⟩
    rw [h.1]
    exact StackBuf.pop_pushLabel st.labels nm v
  | .withName nm body, st => by
    have h := runBs_frames body { st with name := st.name.pushName nm }
    simp only [runB]
    refine ⟨h.1, ?_⟩
    rw [h.2]
    exact StackBuf.pop_pushName st.name nm
  | .addMetric suffix ty help body, st => by
    simp only [runB]
    split <;>
      exact ⟨(runMs_frames _ body _).1, StackBuf.pop_pushName st.name suffix⟩

theorem runBs_frames : ∀ (ops : List BOp) (st : ExpoSt),
    (runBs ops st).labels = st.labels ∧ (runBs ops st).name = st.name
  | [], st => by simp [runBs]
  | op :: rest, st => by
    have h1 := runB_frames op st
    have h2 := runBs_frames rest (runB op st)
    simp only [runBs]
    exact ⟨h2.1.trans h1.1, h2.2.trans h1.2⟩

end

theorem appendLineAt_keys (es : List EntryM) (k line : List Char) :
    (appendLineAt es k line).map EntryM.key = es.map EntryM.key := by
  unfold appendLineAt
  rw [List.map_map]
  apply List.map_congr_left
  intro e _
  by_cases h : e.key = k <;> simp [h]

theorem hasKey_iff (es : List EntryM) (k : List Char) :
    hasKey es k = true ↔ k ∈ es.map EntryM.key := by
  unfold hasKey
  rw [List.any_eq_true]
  simp

mutual

theorem runM_keys : ∀ (g : List Char) (op : MOp) (st : ExpoSt),
    (runM g op st).entries.map EntryM.key = st.entries.map EntryM.key
  | g, .addLine data ts, st => by
    simp [runM, appendLineAt_keys]
  | g, .addLineLabeled label value data ts, st => by
    simp [runM, appendLineAt_keys]
  | g, .withLabel nm v body, st => by
    have h := runMs_keys g body { st with labels := st.labels.pushLabel nm v }
    simpa [runM] using h
  | g, .withName nm body, st => by
    have h := runMs_keys g body { st with name := st.name.pushName nm }
    simpa [runM] using h

theorem runMs_keys : ∀ (g : List Char) (ops : List MOp) (st : ExpoSt),
    (runMs g ops st).entries.map EntryM.key = st.entries.map EntryM.key
  | g, [], st => by simp [runMs]
  | g, op :: rest, st => by
    have h1 := runM_keys g op st
    have h2 := runMs_keys g rest (runM g op st)
    simp only [runMs]
    exact h2.trans h1

end

theorem runB_addMetric_keys (st : ExpoSt) (suffix : List Char)
    (ty : MetricTypeM) (help : List Char) (body : List MOp) :
    (runB (.addMetric suffix ty help body) st).entries.map EntryM.key =
      if hasKey st.entries (st.name.pushName suffix).buf
      then st.entries.map EntryM.key
      else st.entries.map EntryM.key ++ [(st.name.pushName suffix).buf] := by
  simp only [runB]
  split
  next hc =>
    rw [runMs_keys _ body _]
  next hc =>
    rw [runMs_keys _ body _]
    simp

mutual

theorem runB_nodup : ∀ (op : BOp) (st : ExpoSt),
    (st.entries.map EntryM.key).Nodup →
      ((runB op st).entries.map EntryM.key).Nodup
  | .withLabel nm v body, st => fun h => by
    have hh := runBs_nodup body { st with labels := st.labels.pushLabel nm v } h
    simpa [runB] using hh
  | .withName nm body, st => fun h => by
    have hh := runBs_nodup body { st with name := st.name.pushName nm } h
    simpa [runB] using hh
  | .addMetric suffix ty help body, st => fun h => by
    rw [runB_addMetric_keys]
    split
    next hc => exact h
    next hc =>
      rw [List.nodup_append]
      refine ⟨h, List.nodup_singleton _, ?_⟩
      intro a ha hasing
      rw [List.mem_singleton] at hasing
      subst hasing
      exact hc ((hasKey_iff _ _).mpr ha)

theorem runBs_nodup : ∀ (ops : List BOp) (st : ExpoSt),
    (st.entries.map EntryM.key).Nodup →
      ((runBs ops st).entries.map EntryM.key).Nodup
  | [], st => fun h => h
  | op :: rest, st => fun h => by
    have h1 := runB_nodup op st h
    have h2 := runBs_nodup rest (runB op st) h1
    simpa [runBs] using h2

end

instance : IsTotal EntryM fun a b => a.key ≤ b.key :=
  ⟨fun a b => le_total a.key b.key⟩

instance : IsTrans EntryM fun a b => a.key ≤ b.key :=
  ⟨fun _ _ _ hab hbc => le_trans hab hbc⟩

/-- C1 counterexample: inserting group `b` before group `a` (each with
one line) renders `a`'s group first — the `Display` impl sorts the
non-empty groups by name (`sort_unstable_by_key`), so the emitted text
differs from the insertion-order emission the claim describes. -/
theorem render_not_insertion_order :
    renderOut (runBs
        [.addMetric ['b'] .gauge ['h'] [.addLine ['1'] none],
         .addMetric ['a'] .gauge ['h'] [.addLine ['1'] none]] expoInit) =
      "# HELP a h\n# TYPE a gauge\na 1\n# HELP b h\n# TYPE b gauge\nb 1\n".toList ∧
    renderInsertionOrder (runBs
        [.addMetric ['b'] .gauge ['h'] [.addLine ['1'] none],
         .addMetric ['a'] .gauge ['h'] [.addLine ['1'] none]] expoInit) =
      "# HELP b h\n# TYPE b gauge\nb 1\n# HELP a h\n# TYPE a gauge\na 1\n".toList ∧
    renderOut (runBs
        [.addMetric ['b'] .gauge ['h'] [.addLine ['1'] none],
         .addMetric ['a'] .gauge ['h'] [.addLine ['1'] none]] expoInit) ≠
      renderInsertionOrder (runBs
        [.addMetric ['b'] .gauge ['h'] [.addLine ['1'] none],
         .addMetric ['a'] .gauge ['h'] [.addLine ['1'] none]] expoInit) := by
  refine ⟨by decide, by decide, by decide⟩

/-- C1 (amended): rendering the `ExpositionBuilder` emits exactly the
non-empty metric groups, but in ascending lexicographic order of their
fully qualified names rather than in the order the groups were first
inserted: the emitted group-key sequence is sorted and is a
permutation of the non-empty groups' insertion order. -/
theorem render_group_order (st : ExpoSt) :
    List.Sorted (· ≤ ·) ((sortedEntries st).map EntryM.key) ∧
    ((sortedEntries st).map EntryM.key).Perm
      ((st.entries.filter entryNonEmpty).map EntryM.key) ∧
    renderOut st = ((sortedEntries st).map renderEntry).flatten := by
  refine ⟨?_, ?_, rfl⟩
  · have h := List.sorted_insertionSort (fun a b : EntryM => a.key ≤ b.key)
      (st.entries.filter entryNonEmpty)
    rw [List.Sorted, List.pairwise_map]
    exact h
  · exact (List.perm_insertionSort _ _).map _

/-- C8: each fully qualified metric name owns at most one group — so
its HELP/TYPE header is rendered at most once; a repeated `add_metric`
with an existing name adds no group (its lines append to the existing
one, in call order after the earlier lines, as the concrete two-call
scenario shows); and a group whose body added no lines produces no
output at all. -/
theorem add_metric_dedup_spec :
    (∀ ops : List BOp,
      ((sortedEntries (runBs ops expoInit)).map EntryM.key).Nodup) ∧
    (∀ (st : ExpoSt) (suffix : List Char) (ty : MetricTypeM)
        (help : List Char) (body : List MOp),
      (runB (.addMetric suffix ty help body) st).entries.map EntryM.key =
        if hasKey st.entries (st.name.pushName suffix).buf
        then st.entries.map EntryM.key
        else st.entries.map EntryM.key ++ [(st.name.pushName suffix).buf]) ∧
    renderOut (runBs
        [.addMetric ['m'] .gauge ['h'] [.addLine ['1'] none, .addLine ['2'] none],
         .addMetric ['m'] .gauge ['h'] [.addLine ['1'] none, .addLine ['2'] none]]
        expoInit) =
      "# HELP m h\n# TYPE m gauge\nm 1\nm 2\nm 1\nm 2\n".toList ∧
    renderOut (runBs [.addMetric ['m'] .gauge ['h'] []] expoInit) = [] := by
  refine ⟨?_, runB_addMetric_keys, by decide, by decide⟩
  intro ops
  have hnodup : ((runBs ops expoInit).entries.map EntryM.key).Nodup :=
    runBs_nodup ops expoInit (by simp [expoInit])
  have hsub : (((runBs ops expoInit).entries.filter entryNonEmpty).map
      EntryM.key).Nodup :=
    List.Pairwise.sublist ((List.filter_sublist _).map _) hnodup
  exact (((List.perm_insertionSort _ _).map EntryM.key).nodup_iff).mpr hsub

/-- C9: every builder operation — `with_label`, `with_name` and
`add_metric` with an arbitrary body of metric-builder operations (which
may push names and labels internally) — leaves the name stack and the
label stack of the `ExpositionBuilder` exactly as they were before the
call. -/
theorem builder_stacks_restored (op : BOp) (st : ExpoSt) :
    (runB op st).name = st.name ∧ (runB op st).labels = st.labels :=
  ⟨(runB_frames op st).2, (runB_frames op st).1⟩

/-! ## `src/speedtest.rs` -/

/-- `SpeedtestSample`: byte count and duration, both `f64` (finite in
every sample the engine records; carried as exact rationals). -/
structure SpeedtestSample where
  bytes : ℚ
  seconds : ℚ
deriving DecidableEq, Repr

/-- `SpeedtestSample::bps`: `(self.bytes / self.seconds) as i64 * 8` —
the float quotient is cast to `i64` (saturating, truncation toward
zero, `NaN` to 0) **before** the multiplication by 8, which wraps on
`i64` overflow. -/
def SpeedtestSample.bps (s : SpeedtestSample) : Int :=
  i64wrap (GF.castI64 (GF.div (GF.fin s.bytes) (GF.fin s.seconds)) * 8)

/-- `SpeedtestSample::bps_f64`: `self.bytes / self.seconds * 8.`. -/
def SpeedtestSample.bpsF (s : SpeedtestSample) : GF :=
  GF.mul (GF.div (GF.fin s.bytes) (GF.fin s.seconds)) (GF.fin 8)

/-- `SpeedtestSummary` with the standard deviation carried as the
radicand handed to `sqrt` (`stddevSq`); `quantiles`, `mean` and `sum`
hold the `u64` values produced by the `try_into().unwrap()` calls. -/
structure SpeedtestSummaryM where
  quantiles : List (ℚ × Nat)
  mean : Nat
  stddevSq : GF
  sum : Nat
  count : Nat
deriving DecidableEq, Repr

/-- The inner quantile loop of `digest_data`: starting at the current
cursor, consume every pending quantile `q` with `ratio ≥ q`, pairing
each with this sample's `bps` converted by `try_into().unwrap()`
(`none` models the panic on a negative value).  Returns the emitted
pairs and the quantiles still pending. -/
def consumeQuantiles (v : Int) (ratio : ℚ) :
    List ℚ → Option (List (ℚ × Nat) × List ℚ)
  | [] => some ([], [])
  | q :: qs =>
    if ratio ≥ q then
      if v < 0 then none
      else do
        let (acc, rem) ← consumeQuantiles v ratio qs
        some ((q, v.toNat) :: acc, rem)
    else some ([], q :: qs)

/-- The `'outer` sample walk of the weighted-quantile computation
(C = ½): `covered` accumulates seconds; each sample's midpoint ratio
`(covered + seconds/2) / total.seconds` is compared against the
pending quantiles; when none remain the walk breaks out early. -/
def quantileWalk (totalSeconds : ℚ) :
    List SpeedtestSample → ℚ → List ℚ → Option (List (ℚ × Nat) × List ℚ)
  | [], _, qs => some ([], qs)
  | s :: rest, covered, qs => do
    let mid := covered + s.seconds * (1/2)
    let (acc1, rem) ← consumeQuantiles s.bps (mid / totalSeconds) qs
    if rem.isEmpty then
      some (acc1, [])
    else do
      let (acc2, rem2) ← quantileWalk totalSeconds rest (covered + s.seconds) rem
      some (acc1 ++ acc2, rem2)

/-- `SpeedtestSummary::digest_data`.  `none` models the panics of the
source: `samples.last().unwrap()` on an empty vector, and the
`try_into().unwrap()` conversions of negative `i64` values to `u64`.
The in-place `sort_unstable_by_key(bps)` is modelled with insertion
sort (same sorted permutation; downstream consumers are
order-insensitive beyond sortedness). -/
def speedtestDigest (dataSamples : List SpeedtestSample)
    (total : SpeedtestSample) (quantiles : List ℚ) :
    Option SpeedtestSummaryM := do
  let samples := dataSamples.insertionSort fun a b => a.bps ≤ b.bps
  let quantilesMap ←
    if ¬quantiles.isEmpty ∧ 0 < total.seconds then do
      let (acc, rem) ← quantileWalk total.seconds samples 0 quantiles
      if rem.isEmpty then some acc
      else
        match samples.getLast? with
        | none => none
        | some lastSample =>
          if lastSample.bps < 0 then none
          else some (acc ++ rem.filterMap fun q =>
            if q ≥ 1 then some (q, lastSample.bps.toNat) else none)
    else some []
  let meanI := total.bps
  let meanN ← if meanI < 0 then none else some meanI.toNat
  let meanf := total.bpsF
  let stddevSq := GF.div
    (GF.sumList (samples.map fun x =>
      GF.mul (GF.fin x.seconds)
        (GF.mul (GF.sub meanf x.bpsF) (GF.sub meanf x.bpsF))))
    (GF.fin total.seconds)
  let sumI := samples.foldl (fun a s => i64wrap (a + s.bps)) 0
  let sumN ← if sumI < 0 then none else some sumI.toNat
  some ⟨quantilesMap, meanN, stddevSq, sumN, samples.length⟩

theorem foldl_add_nan (l : List GF) :
    l.foldl GF.add GF.nan = GF.nan := by
  induction l with
  | nil => rfl
  | cons x rest ih => simpa [List.foldl, GF.add] using ih

/-- C10: `SpeedtestSummary::digest_data` is partial.  With an empty
samples vector, `total.seconds > 0` and a non-empty quantile list it
panics (`samples.last().unwrap()` on the empty vector) instead of
returning a summary; and the guard that skips the quantile computation
(yielding the empty quantile list) is exactly `total.seconds == 0` (or
non-positive) or an empty quantile list. -/
theorem speedtest_digest_partial :
    (∀ (total : SpeedtestSample) (qs : List ℚ),
      0 < total.seconds → qs ≠ [] → speedtestDigest [] total qs = none) ∧
    (∀ (samples : List SpeedtestSample) (total : SpeedtestSample)
        (qs : List ℚ) (r : SpeedtestSummaryM),
      (qs = [] ∨ ¬ 0 < total.seconds) →
      speedtestDigest samples total qs = some r → r.quantiles = []) := by
  constructor
  · intro total qs hsec hq
    cases qs with
    | nil => exact absurd rfl hq
    | cons q qs' =>
      simp only [speedtestDigest]
      rw [if_pos ⟨by simp, hsec⟩]
      rfl
  · intro samples total qs r hskip h
    simp only [speedtestDigest] at h
    rw [if_neg (by
      rintro ⟨hne, hpos⟩
      rcases hskip with hq | hs
      · subst hq
        exact hne rfl
      · exact hs hpos)] at h
    simp only [Option.bind_eq_bind, Option.pure_def, Option.some_bind,
      Option.none_bind] at h
    split at h
    · simp at h
    · split at h
      · simp at h
      · injection h with h
        rw [← h]

/-- Witness for the partiality theorem: concrete inputs for both
conjuncts. -/
theorem speedtest_digest_partial_witness :
    speedtestDigest [] ⟨5, 2⟩ [1/2] = none ∧
    ∀ r : SpeedtestSummaryM,
      speedtestDigest [⟨3, 1⟩] ⟨3, 1⟩ [] = some r → r.quantiles = [] := by
  constructor
  · exact speedtest_digest_partial.1 ⟨5, 2⟩ [1/2] (by norm_num) (by simp)
  · intro r
    exact speedtest_digest_partial.2 [⟨3, 1⟩] ⟨3, 1⟩ [] r (Or.inl rfl)

/-- C3 counterexample: an empty samples list alone does **not** produce
the zero summary the claim describes: with `samples = []`,
`total = { bytes: 100, seconds: 1 }` and no quantiles, `digest_data`
returns `mean = 800` (the mean comes from the totals), not `0`. -/
theorem speedtest_digest_empty_samples_mean :
    speedtestDigest [] ⟨100, 1⟩ [] = some ⟨[], 800, GF.fin 0, 0, 0⟩ ∧
    (800 : Nat) ≠ 0 := by
  constructor
  · norm_num [speedtestDigest, SpeedtestSample.bps, SpeedtestSample.bpsF,
      GF.div, GF.castI64, GF.truncQ, i64wrap, GF.sumList, GF.mul,
      List.insertionSort]
    rfl
  · norm_num

/-- C3 (amended): for a `SpeedtestData` whose totals are zero
(`total.seconds == 0` and `total.bytes == 0`), every summary
`digest_data` returns has empty quantiles and `mean = 0`, but its
standard deviation is `NaN` (the radicand is `0/0` or propagates
`NaN`), not `0`; an empty samples list with `total.seconds > 0` does
not take this path (the mean is computed from the totals, and a
non-empty quantile list makes the call panic). -/
theorem speedtest_digest_zero_total (samples : List SpeedtestSample)
    (qs : List ℚ) (r : SpeedtestSummaryM)
    (h : speedtestDigest samples ⟨0, 0⟩ qs = some r) :
    r.quantiles = [] ∧ r.mean = 0 ∧ r.stddevSq = GF.nan := by
  have hmean : SpeedtestSample.bps ⟨0, 0⟩ = 0 := by
    norm_num [SpeedtestSample.bps, GF.div, GF.castI64, i64wrap]
  have hmeanf : SpeedtestSample.bpsF ⟨0, 0⟩ = GF.nan := by
    norm_num [SpeedtestSample.bpsF, GF.div, GF.mul]
  simp only [speedtestDigest, hmean, hmeanf] at h
  rw [if_neg (by
    rintro ⟨_, hpos⟩
    exact absurd hpos (by norm_num))] at h
  have hstd : GF.div
      (GF.sumList ((samples.insertionSort fun a b => a.bps ≤ b.bps).map fun x =>
        GF.mul (GF.fin x.seconds)
          (GF.mul (GF.sub GF.nan x.bpsF) (GF.sub GF.nan x.bpsF))))
      (GF.fin (0:ℚ)) = GF.nan := by
    have hterm : ∀ y : SpeedtestSample,
        GF.mul (GF.fin y.seconds)
          (GF.mul (GF.sub GF.nan y.bpsF) (GF.sub GF.nan y.bpsF)) = GF.nan := by
      intro y
      rw [GF.sub_nan_left, GF.mul_nan_left, GF.mul_nan_right]
    have hsum : ∀ l : List SpeedtestSample,
        GF.div (GF.sumList (l.map fun _ => GF.nan)) (GF.fin 0) = GF.nan := by
      intro l
      cases l with
      | nil => norm_num [GF.sumList, GF.div]
      | cons x rest =>
        simp only [List.map_cons, GF.sumList, List.foldl]
        rw [GF.add_nan_right, foldl_add_nan, GF.div_nan_left]
    rw [List.map_congr_left fun y _ => hterm y, hsum]
  simp only [Option.bind_eq_bind, Option.pure_def, Option.some_bind,
    Option.none_bind] at h
  rw [if_neg (show ¬ (0:Int) < 0 by norm_num)] at h
  split at h
  · simp at h
  · injection h with h
    rw [← h]
    exact ⟨rfl, rfl, hstd⟩

/-- Witness for the zero-total theorem: the concrete all-zero input
evaluates to the summary with empty quantiles, zero mean and `NaN`
standard deviation. -/
theorem speedtest_digest_zero_total_witness :
    speedtestDigest [] ⟨0, 0⟩ [] = some ⟨[], 0, GF.nan, 0, 0⟩ ∧
    (⟨[], 0, GF.nan, 0, 0⟩ : SpeedtestSummaryM).quantiles = [] ∧
    (⟨[], 0, GF.nan, 0, 0⟩ : SpeedtestSummaryM).mean = 0 ∧
    (⟨[], 0, GF.nan, 0, 0⟩ : SpeedtestSummaryM).stddevSq = GF.nan := by
  have heval : speedtestDigest [] ⟨0, 0⟩ [] = some ⟨[], 0, GF.nan, 0, 0⟩ := by
    norm_num [speedtestDigest, SpeedtestSample.bps, SpeedtestSample.bpsF,
      GF.div, GF.castI64, GF.truncQ, i64wrap, GF.sumList, GF.mul,
      List.insertionSort]
  exact ⟨heval, speedtest_digest_zero_total [] [] _ heval⟩

/-- C4 counterexample: for the sample `{ bytes: 1.0, seconds: 2.0 }`
the `i64` value `bps()` used by the quantile/sum/mean computations is
`(1.0/2.0) as i64 * 8 = 0`, while `bytes/seconds * 8 = 4` — the claim's
exact equality fails because the quotient is truncated to an integer
before the multiplication by 8. -/
theorem speedtest_bps_truncates :
    SpeedtestSample.bps ⟨1, 2⟩ = 0 ∧
    SpeedtestSample.bpsF ⟨1, 2⟩ = GF.fin 4 ∧
    (0 : Int) ≠ (4 : Int) := by
  refine ⟨?_, ?_, by norm_num⟩
  · norm_num [SpeedtestSample.bps, GF.div, GF.castI64, GF.truncQ, i64wrap]
  · norm_num [SpeedtestSample.bpsF, GF.div, GF.mul]

/-- C4 (amended): for every sample with `seconds > 0` (and a quotient
within the non-saturating, non-wrapping range), the `i64` value
`bps()` used for the quantiles, the sum and the mean equals
`8 * trunc(bytes/seconds)` — the float quotient truncated toward zero
and then scaled — while the `f64` value `bps_f64()` used by the
standard deviation equals `bytes/seconds * 8` exactly. -/
theorem speedtest_bps_spec (s : SpeedtestSample) (hsec : 0 < s.seconds)
    (hbound : |GF.truncQ (s.bytes / s.seconds)| ≤ 2 ^ 59) :
    SpeedtestSample.bps s = 8 * GF.truncQ (s.bytes / s.seconds) ∧
    SpeedtestSample.bpsF s = GF.fin (s.bytes / s.seconds * 8) := by
  have hne : s.seconds ≠ 0 := ne_of_gt hsec
  have hdiv : GF.div (GF.fin s.bytes) (GF.fin s.seconds) =
      GF.fin (s.bytes / s.seconds) := by
    simp only [GF.div]
    rw [if_neg hne]
  obtain ⟨hlo, hhi⟩ := abs_le.mp hbound
  constructor
  · rw [SpeedtestSample.bps, hdiv]
    have hc : GF.castI64 (GF.fin (s.bytes / s.seconds)) =
        GF.truncQ (s.bytes / s.seconds) := by
      simp only [GF.castI64]
      rw [min_eq_left (by omega), max_eq_right (by omega)]
    rw [hc, i64wrap_eq_self (by omega) (by omega)]
    ring
  · rw [SpeedtestSample.bpsF, hdiv]
    rfl

/-- Witness for the amended `bps` theorem at the concrete sample
`{ bytes: 3.0, seconds: 2.0 }` (quotient `1.5`, truncated to `1`). -/
theorem speedtest_bps_spec_witness :
    SpeedtestSample.bps ⟨3, 2⟩ = 8 * GF.truncQ ((3 : ℚ) / 2) ∧
    SpeedtestSample.bpsF ⟨3, 2⟩ = GF.fin ((3 : ℚ) / 2 * 8) :=
  speedtest_bps_spec ⟨3, 2⟩ (by norm_num)
    (by norm_num [GF.truncQ])

/-! ## `src/ping.rs` -/

/-- `PingErrorKind` (`io_error` carries the display string of its
`std::io::ErrorKind`). -/
inductive PingErrorKind where
  | incorrectBufferSize
  | malformedPacket
  | ioError (kind : List Char)
  | timeout
  | echoRequestPacket
  | networkError
  | identicalRequests
deriving DecidableEq, Repr

/-- `Vec::swap_remove(i)`: overwrite position `i` with the last
element, then pop the last element. -/
def swapRemove {α : Type} (l : List α) (i : Nat) (h : 0 < l.length) :
    List α :=
  (l.set i (l.getLast (List.ne_nil_of_length_pos h))).dropLast

theorem swapRemove_length {α : Type} (l : List α) (i : Nat)
    (h : 0 < l.length) : (swapRemove l i h).length = l.length - 1 := by
  simp [swapRemove]

theorem swapRemove_perm {α : Type} :
    ∀ (l : List α) (i : Nat), i < l.length → ∀ (h : 0 < l.length),
      (swapRemove l i h).Perm (l.eraseIdx i) := by
  intro l
  induction l with
  | nil =>
    intro i hi _
    simp at hi
  | cons a t ih =>
    intro i hi h
    cases i with
    | zero =>
      cases t with
      | nil => simp [swapRemove]
      | cons b t2 =>
        unfold swapRemove
        rw [List.getLast_cons (by simp)]
        show ((List.getLast (b :: t2) (by simp) :: b :: t2).dropLast).Perm _
        rw [List.dropLast_cons_of_ne_nil (by simp)]
        have hdg := List.dropLast_append_getLast (l := b :: t2) (by simp)
        show (List.getLast (b :: t2) (by simp) :: (b :: t2).dropLast).Perm (b :: t2)
        conv_rhs => rw [← hdg]
        exact (List.perm_append_singleton _ _).symm
    | succ j =>
      have hj : j < t.length := by simpa using hi
      have ht : t ≠ [] := List.ne_nil_of_length_pos (by omega)
      unfold swapRemove
      rw [List.getLast_cons ht]
      show ((a :: t.set j (t.getLast ht)).dropLast).Perm ((a :: t).eraseIdx (j + 1))
      rw [List.dropLast_cons_of_ne_nil
        (List.ne_nil_of_length_pos (by simp; omega))]
      show (a :: (t.set j (t.getLast ht)).dropLast).Perm (a :: t.eraseIdx j)
      exact List.Perm.cons a (ih j hj (by omega))

/-- The NaN-removal loop of `PingSummary::digest_data`: while
`i < samples.len()`, a `NaN` at position `i` is `swap_remove`d and
counted as lost, otherwise `i` advances.  Returns the retained samples
(in the loop's scrambled order) and the number of lost packets. -/
def removeNans (l : List GF) (i : Nat) : List GF × Nat :=
  if h : i < l.length then
    if (l[i]).isNan then
      ((removeNans (swapRemove l i (by omega)) i).1,
        (removeNans (swapRemove l i (by omega)) i).2 + 1)
    else removeNans l (i + 1)
  else (l, 0)
termination_by l.length - i
decreasing_by
  all_goals first
    | (simp only [swapRemove_length]; omega)
    | omega

theorem removeNans_spec (l : List GF) (i : Nat)
    (hpre : (l.take i).all (fun x => !x.isNan) = true) :
    (removeNans l i).1.Perm (l.filter fun x => !x.isNan) ∧
    (removeNans l i).2 = l.countP (fun x => x.isNan) := by
  rw [removeNans]
  split
  next h =>
    split
    next hnan =>
      have hperm2 := swapRemove_perm l i h (by omega)
      have hpre2 : ((swapRemove l i (by omega)).take i).all
          (fun x => !x.isNan) = true := by
        have hset : (l.set i (l.getLast (List.ne_nil_of_length_pos (by omega)))).take i
            = l.take i := by
          rw [List.set_eq_take_append_cons_drop, if_pos h]
          rw [List.take_append_eq_append_take]
          simp [List.length_take, Nat.min_eq_left (Nat.le_of_lt h)]
        unfold swapRemove
        rw [List.dropLast_eq_take, List.take_take, List.length_set]
        rw [Nat.min_eq_left (by omega), hset]
        exact hpre
      have hrec := removeNans_spec (swapRemove l i (by omega)) i hpre2
      have hfe : ((l.eraseIdx i).filter fun x => !x.isNan) =
          l.filter fun x => !x.isNan := by
        rw [List.eraseIdx_eq_take_drop_succ, List.filter_append]
        conv_rhs => rw [← List.take_append_drop i l]
        rw [List.filter_append, List.drop_eq_getElem_cons h, List.filter_cons]
        simp [hnan]
      have hce : (l.eraseIdx i).countP (fun x => x.isNan) + 1 =
          l.countP (fun x => x.isNan) := by
        rw [List.eraseIdx_eq_take_drop_succ, List.countP_append]
        conv_rhs => rw [← List.take_append_drop i l]
        rw [List.countP_append, List.drop_eq_getElem_cons h, List.countP_cons]
        simp [hnan]
        omega
      constructor
      · exact hrec.1.trans
          (((hperm2.filter fun x => !x.isNan).trans (by rw [hfe])))
      · rw [hrec.2, hperm2.countP_eq _]
        exact hce
    next hnan =>
      have hpre2 : (l.take (i + 1)).all (fun x => !x.isNan) = true := by
        rw [List.take_succ, List.all_append, hpre]
        simp [List.getElem?_eq_getElem h, hnan]
      exact removeNans_spec l (i + 1) hpre2
  next h =>
    have hall : l.all (fun x => !x.isNan) = true := by
      rwa [List.take_of_length_le (by omega)] at hpre
    rw [List.all_eq_true] at hall
    constructor
    · rw [List.filter_eq_self.mpr hall]
    · rw [List.countP_eq_zero.mpr]
      intro x hx
      have := hall x hx
      simpa using this
termination_by l.length - i
decreasing_by
  all_goals first
    | (simp only [swapRemove_length]; omega)
    | omega

/-- `f32::round` lifted to the float model. -/
def GF.round : GF → GF
  | .nan => .nan
  | .inf s => .inf s
  | .fin q => .fin (GF.roundHalfAway q)

/-- The value recorded into the histogram for one sample:
`(*sample * 16.).round() as u64`. -/
def pingRecord (x : GF) : Nat :=
  GF.castU64 (GF.round (GF.mul x (GF.fin 16)))

/-- Modelled from the spec: the `hdrhistogram` crate is external to
this repository.  The spec describes the quantile store as an
integer-granularity histogram (store `round(value*16)`, recover
`bucket/16`), so `value_at_quantile(q)` returns the smallest recorded
integer whose cumulative count reaches `max(ceil(q*total), 1)` — the
rank-`max(ceil(q*n),1)` order statistic of the recorded values. -/
def histValueAtQuantile (values : List Nat) (q : ℚ) : Nat :=
  (values.insertionSort (· ≤ ·)).getD
    (max (Int.toNat ⌈q * values.length⌉) 1 - 1) 0

instance : RightCommutative GF.add := ⟨GF.add_left_comm_fold⟩

theorem sumList_perm {l l' : List GF} (h : l.Perm l') :
    GF.sumList l = GF.sumList l' :=
  h.foldl_eq (GF.fin 0)

theorem histValueAtQuantile_perm {v v' : List Nat} (hp : v.Perm v')
    (q : ℚ) : histValueAtQuantile v q = histValueAtQuantile v' q := by
  unfold histValueAtQuantile
  rw [hp.length_eq]
  rw [List.eq_of_perm_of_sorted
    ((List.perm_insertionSort _ v).trans
      (hp.trans (List.perm_insertionSort _ v').symm))
    (List.sorted_insertionSort _ v) (List.sorted_insertionSort _ v')]

theorem GF.div_fin_fin (a b : ℚ) (hb : b ≠ 0) :
    GF.div (GF.fin a) (GF.fin b) = GF.fin (a / b) := by
  simp [GF.div, hb]

theorem GF.isNan_iff (x : GF) : x.isNan = true ↔ x = GF.nan := by
  cases x <;> simp [GF.isNan]

/-- `PingSummary` with the standard deviation carried as the radicand
handed to `sqrt` (`stddevSq`) and the error map as its count
function. -/
structure PingSummaryM where
  quantiles : List (ℚ × GF)
  mean_ms : GF
  stddevSq : GF
  count : Nat
  loss_percent : GF
  errors : PingErrorKind → Nat

/-- `PingSummary::digest_data`: bucket the errors, swap-remove the NaN
samples counting them lost, and either return the all-lost summary or
histogram/mean/stddev/loss over the retained samples.  The in-place
`sort_unstable_by(partial_cmp)` (which cannot see a NaN here) is
modelled with insertion sort on the total NaN-free order. -/
def pingDigest (samples : List GF) (errors : List PingErrorKind)
    (quantiles : List ℚ) : PingSummaryM :=
  let errCount : PingErrorKind → Nat := fun k => errors.count k
  let totalPackets := samples.length
  let removed := removeNans samples 0
  let retained := removed.1
  let lostPackets := removed.2
  if retained.isEmpty then
    ⟨[], GF.nan, GF.nan, 0, GF.fin 1, errCount⟩
  else
    let recorded := retained.map pingRecord
    let sorted := retained.insertionSort fun a b => GF.leb a b = true
    let n := sorted.length
    let meanMs := GF.div (GF.sumList sorted) (GF.fin n)
    ⟨quantiles.map fun q =>
        (q, GF.div (GF.fin (histValueAtQuantile recorded q)) (GF.fin 16)),
      meanMs,
      GF.div (GF.sumList (sorted.map fun v =>
        GF.mul (GF.sub v meanMs) (GF.sub v meanMs))) (GF.fin n),
      n,
      GF.div (GF.fin lostPackets) (GF.fin totalPackets),
      errCount⟩

theorem ping_digest_errors (samples : List GF) (errs : List PingErrorKind)
    (qs : List ℚ) (k : PingErrorKind) :
    (pingDigest samples errs qs).errors k = errs.count k := by
  simp only [pingDigest]
  split <;> rfl

theorem ping_digest_allnan (samples : List GF) (errs : List PingErrorKind)
    (qs : List ℚ) (hall : ∀ x ∈ samples, x = GF.nan) :
    pingDigest samples errs qs =
      ⟨[], GF.nan, GF.nan, 0, GF.fin 1, fun k => errs.count k⟩ := by
  obtain ⟨hperm, hcount⟩ := removeNans_spec samples 0 rfl
  have hvalid : (samples.filter fun x => !x.isNan) = [] := by
    rw [List.filter_eq_nil_iff]
    intro x hx
    rw [hall x hx]
    simp [GF.isNan]
  have hret : (removeNans samples 0).1 = [] := by
    rw [hvalid] at hperm
    exact hperm.eq_nil
  simp only [pingDigest]
  rw [if_pos (by simp [hret])]

theorem ping_digest_valid (samples : List GF) (errs : List PingErrorKind)
    (qs : List ℚ) (hnn : ¬ ∀ x ∈ samples, x = GF.nan) :
    (pingDigest samples errs qs).count =
      (samples.filter fun x => !x.isNan).length ∧
    (pingDigest samples errs qs).mean_ms =
      GF.div (GF.sumList (samples.filter fun x => !x.isNan))
        (GF.fin ((samples.filter fun x => !x.isNan).length : ℚ)) ∧
    (pingDigest samples errs qs).stddevSq =
      GF.div (GF.sumList ((samples.filter fun x => !x.isNan).map fun v =>
        GF.mul
          (GF.sub v (GF.div (GF.sumList (samples.filter fun x => !x.isNan))
            (GF.fin ((samples.filter fun x => !x.isNan).length : ℚ))))
          (GF.sub v (GF.div (GF.sumList (samples.filter fun x => !x.isNan))
            (GF.fin ((samples.filter fun x => !x.isNan).length : ℚ))))))
        (GF.fin ((samples.filter fun x => !x.isNan).length : ℚ)) ∧
    (pingDigest samples errs qs).loss_percent =
      GF.fin (((samples.countP fun x => x.isNan : Nat) : ℚ) /
        ((samples.length : Nat) : ℚ)) ∧
    (pingDigest samples errs qs).quantiles =
      qs.map fun q => (q, GF.fin
        (((histValueAtQuantile
          ((samples.filter fun x => !x.isNan).map pingRecord) q : Nat) : ℚ) / 16)) := by
  obtain ⟨hperm, hcount⟩ := removeNans_spec samples 0 rfl
  have hvne : (samples.filter fun x => !x.isNan) ≠ [] := by
    intro h0
    apply hnn
    intro x hx
    have hfil := List.filter_eq_nil_iff.mp h0 x hx
    rw [← GF.isNan_iff]
    simpa using hfil
  have hretne : (removeNans samples 0).1 ≠ [] := by
    intro h0
    rw [h0] at hperm
    exact hvne hperm.symm.eq_nil
  have hsp := List.perm_insertionSort (fun a b : GF => GF.leb a b = true)
    (removeNans samples 0).1
  have hsortv := hsp.trans hperm
  have hlen := hsortv.length_eq
  have hsum := sumList_perm hsortv
  have hslen : samples.length ≠ 0 := by
    intro h0
    rw [List.length_eq_zero] at h0
    subst h0
    exact hvne rfl
  simp only [pingDigest]
  rw [if_neg (by simp [hretne])]
  refine ⟨hlen, ?_, ?_, ?_, ?_⟩
  · rw [hsum, hlen]
  · rw [hsum, hlen, sumList_perm (hsortv.map _)]
  · rw [hcount, GF.div_fin_fin _ _ (by exact_mod_cast hslen)]
  · apply List.map_congr_left
    intro q _
    rw [histValueAtQuantile_perm (hperm.map pingRecord),
      GF.div_fin_fin _ _ (by norm_num)]

theorem ping_digest_example :
    (pingDigest [GF.nan, GF.fin 10, GF.fin 20, GF.nan, GF.fin 30] []
      [0, 1/2, 1]).count = 3 ∧
    (pingDigest [GF.nan, GF.fin 10, GF.fin 20, GF.nan, GF.fin 30] []
      [0, 1/2, 1]).mean_ms = GF.fin 20 ∧
    (pingDigest [GF.nan, GF.fin 10, GF.fin 20, GF.nan, GF.fin 30] []
      [0, 1/2, 1]).stddevSq = GF.fin (200/3) ∧
    (pingDigest [GF.nan, GF.fin 10, GF.fin 20, GF.nan, GF.fin 30] []
      [0, 1/2, 1]).loss_percent = GF.fin (2/5) ∧
    (pingDigest [GF.nan, GF.fin 10, GF.fin 20, GF.nan, GF.fin 30] []
      [0, 1/2, 1]).quantiles =
        [(0, GF.fin 10), (1/2, GF.fin 20), (1, GF.fin 30)] := by
  have hnn : ¬ ∀ x ∈ [GF.nan, GF.fin 10, GF.fin 20, GF.nan, GF.fin 30],
      x = GF.nan := by
    intro hc
    have h10 := hc (GF.fin 10) (by simp)
    exact absurd h10 (by simp)
  have hex := ping_digest_valid [GF.nan, GF.fin 10, GF.fin 20, GF.nan, GF.fin 30]
    [] [0, 1/2, 1] hnn
  have hfil : ([GF.nan, GF.fin 10, GF.fin 20, GF.nan, GF.fin 30].filter
      fun x => !x.isNan) = [GF.fin 10, GF.fin 20, GF.fin 30] := rfl
  rw [hfil] at hex
  have hsum60 : GF.sumList [GF.fin 10, GF.fin 20, GF.fin 30] = GF.fin 60 := by
    norm_num [GF.sumList, GF.add]
  have hlen3 : (([GF.fin 10, GF.fin 20, GF.fin 30] : List GF).length : ℚ) = 3 := by
    norm_num
  have hmean : GF.div (GF.sumList [GF.fin 10, GF.fin 20, GF.fin 30])
      (GF.fin (([GF.fin 10, GF.fin 20, GF.fin 30] : List GF).length : ℚ)) =
      GF.fin 20 := by
    rw [hsum60, hlen3, GF.div_fin_fin _ _ (by norm_num)]
    norm_num
  obtain ⟨hc1, hc2, hc3, hc4, hc5⟩ := hex
  refine ⟨?_, ?_, ?_, ?_, ?_⟩
  · rw [hc1]
    rfl
  · rw [hc2]
    exact hmean
  · rw [hc3, hmean]
    have hmap : ([GF.fin 10, GF.fin 20, GF.fin 30].map fun v =>
        GF.mul (GF.sub v (GF.fin 20)) (GF.sub v (GF.fin 20))) =
        [GF.fin 100, GF.fin 0, GF.fin 100] := by
      norm_num [GF.sub, GF.neg, GF.add, GF.mul]
    rw [hmap]
    have hsum200 : GF.sumList [GF.fin 100, GF.fin 0, GF.fin 100] =
        GF.fin 200 := by
      norm_num [GF.sumList, GF.add]
    rw [hsum200, hlen3, GF.div_fin_fin _ _ (by norm_num)]
  · rw [hc4]
    norm_num [GF.isNan, List.countP, List.countP.go]
  · rw [hc5]
    have hrec : ([GF.fin 10, GF.fin 20, GF.fin 30].map pingRecord) =
        [160, 320, 480] := by
      norm_num [pingRecord, GF.mul, GF.round, GF.roundHalfAway, GF.castU64,
        GF.truncQ]
      exact ⟨rfl, rfl, rfl⟩
    rw [hrec]
    have h0 : histValueAtQuantile [160, 320, 480] 0 = 160 := by
      norm_num [histValueAtQuantile, List.insertionSort, List.orderedInsert]
    have hhalf : histValueAtQuantile [160, 320, 480] (1/2) = 320 := by
      have hc32 : ⌈(3:ℚ) / 2⌉ = 2 := by
        norm_num [Int.ceil_eq_iff]
      norm_num [histValueAtQuantile, List.insertionSort, List.orderedInsert,
        hc32]
      decide
    have h1 : histValueAtQuantile [160, 320, 480] 1 = 480 := by
      norm_num [histValueAtQuantile, List.insertionSort, List.orderedInsert]
      decide
    simp only [List.map_cons, List.map_nil, h0, hhalf, h1]
    norm_num

/-- C7: `PingSummary::digest_data` — the collected error counts are
always returned; with no non-NaN sample the result is
`{ quantiles: [], mean: NaN, stddev: NaN, count: 0, loss: 1 }`;
otherwise the mean is the arithmetic mean of the non-NaN samples, the
standard deviation is the population standard deviation (its radicand
divides by N), `loss = lost/total`, and the quantiles come from the
1/16-ms-granularity histogram of the non-NaN samples; for samples
`[NaN, 10, 20, NaN, 30]` and quantiles `[0, 0.5, 1]`: `count = 3`,
`loss = 2/5`, `mean = 20`, the stddev radicand is `200/3` (so
`stddev = sqrt(200/3) ≈ 8.164966`), and `quantile(0.5) = 20` exactly
(within the claim's `±1/16`). -/
theorem ping_digest_spec :
    (∀ (samples : List GF) (errs : List PingErrorKind) (qs : List ℚ)
        (k : PingErrorKind),
      (pingDigest samples errs qs).errors k = errs.count k) ∧
    (∀ (samples : List GF) (errs : List PingErrorKind) (qs : List ℚ),
      (∀ x ∈ samples, x = GF.nan) →
      pingDigest samples errs qs =
        ⟨[], GF.nan, GF.nan, 0, GF.fin 1, fun k => errs.count k⟩) ∧
    (∀ (samples : List GF) (errs : List PingErrorKind) (qs : List ℚ),
      (¬ ∀ x ∈ samples, x = GF.nan) →
      (pingDigest samples errs qs).count =
        (samples.filter fun x => !x.isNan).length ∧
      (pingDigest samples errs qs).mean_ms =
        GF.div (GF.sumList (samples.filter fun x => !x.isNan))
          (GF.fin ((samples.filter fun x => !x.isNan).length : ℚ)) ∧
      (pingDigest samples errs qs).stddevSq =
        GF.div (GF.sumList ((samples.filter fun x => !x.isNan).map fun v =>
          GF.mul
            (GF.sub v (GF.div (GF.sumList (samples.filter fun x => !x.isNan))
              (GF.fin ((samples.filter fun x => !x.isNan).length : ℚ))))
            (GF.sub v (GF.div (GF.sumList (samples.filter fun x => !x.isNan))
              (GF.fin ((samples.filter fun x => !x.isNan).length : ℚ))))))
          (GF.fin ((samples.filter fun x => !x.isNan).length : ℚ)) ∧
      (pingDigest samples errs qs).loss_percent =
        GF.fin (((samples.countP fun x => x.isNan : Nat) : ℚ) /
          ((samples.length : Nat) : ℚ)) ∧
      (pingDigest samples errs qs).quantiles =
        qs.map fun q => (q, GF.fin
          (((histValueAtQuantile
            ((samples.filter fun x => !x.isNan).map pingRecord) q : Nat) : ℚ) /
            16))) ∧
    ((pingDigest [GF.nan, GF.fin 10, GF.fin 20, GF.nan, GF.fin 30] []
      [0, 1/2, 1]).count = 3 ∧
    (pingDigest [GF.nan, GF.fin 10, GF.fin 20, GF.nan, GF.fin 30] []
      [0, 1/2, 1]).mean_ms = GF.fin 20 ∧
    (pingDigest [GF.nan, GF.fin 10, GF.fin 20, GF.nan, GF.fin 30] []
      [0, 1/2, 1]).stddevSq = GF.fin (200/3) ∧
    (pingDigest [GF.nan, GF.fin 10, GF.fin 20, GF.nan, GF.fin 30] []
      [0, 1/2, 1]).loss_percent = GF.fin (2/5) ∧
    (pingDigest [GF.nan, GF.fin 10, GF.fin 20, GF.nan, GF.fin 30] []
      [0, 1/2, 1]).quantiles =
        [(0, GF.fin 10), (1/2, GF.fin 20), (1, GF.fin 30)]) ∧
    (8164965/1000000 : ℝ) < Real.sqrt (200/3) ∧
    Real.sqrt (200/3) < (8164967/1000000 : ℝ) := by
  refine ⟨ping_digest_errors, ping_digest_allnan, ?_, ?_, ?_, ?_⟩
  · intro samples errs qs hnn
    exact ping_digest_valid samples errs qs hnn
  · obtain ⟨h1, h2, h3, h4, h5⟩ := ping_digest_example
    exact ⟨h1, h2, h3, h4, h5⟩
  · rw [Real.lt_sqrt (by positivity)]
    norm_num
  · rw [Real.sqrt_lt' (by positivity)]
    norm_num

/-- Witness for the ping-digestion theorem: the all-NaN branch applied
at the concrete one-sample input. -/
theorem ping_digest_spec_witness :
    pingDigest [GF.nan] [PingErrorKind.timeout] [] =
      ⟨[], GF.nan, GF.nan, 0, GF.fin 1,
        fun k => [PingErrorKind.timeout].count k⟩ :=
  ping_digest_spec.2.1 [GF.nan] [PingErrorKind.timeout] [] (by simp)
